import Mathlib

/-!
Verification of the Flache & Macy caveman polarization model, `macy/macy.py`.

Opinion vectors (numpy 1-d arrays of floats) are modelled as lists of
rationals; numpy element-wise operations become `List.zipWith` / `List.map`;
`np.sum` over a generator of vectors becomes a fold of element-wise addition.
Python exceptions are modelled by an explicit error type wherever a claim is
about the error behaviour; pure-arithmetic helpers that can only fail on
inputs a claim excludes (for example `raw_opinion_update_vec` on an empty
neighbor list, which raises `ZeroDivisionError` in Python) are modelled as
total functions and every claim about them carries the corresponding
hypothesis.  In `ℚ` a division by zero evaluates to `0`; each place where the
source would instead produce a float `nan`/`inf` or raise is noted at the
definition and is either guarded by the model or shown never to reach the
returned value.
-/

namespace Macy

/-- Error outcomes of the modelled Python code.  `zeroDivisionError` and
`runtimeError` are the exceptions the source can actually raise;
`emptyNetworkError` is the name the error taxonomy of the specification uses for
the small-network failure of `polarization` — no class of that name exists
anywhere in the source, the constructor is present only so that the claimed
error can be expressed and compared with what the code does. -/
inductive PyError where
  | zeroDivisionError
  | runtimeError
  | emptyNetworkError
  deriving DecidableEq

/-- Element-wise difference of two numpy vectors, `b - a` truncated to the
common length (the source only ever subtracts equal-shape arrays). -/
def vsub (a b : List ℚ) : List ℚ := List.zipWith (fun x y => x - y) a b

/-- Element-wise sum of two numpy vectors. -/
def vadd (a b : List ℚ) : List ℚ := List.zipWith (fun x y => x + y) a b

/-- Scalar times numpy vector. -/
def vscale (c : ℚ) (v : List ℚ) : List ℚ := v.map (fun x => c * x)

/-- The all-zero vector `np.zeros(K)`. -/
def zeros (K : Nat) : List ℚ := List.replicate K 0

/-- `np.sum(abs(o2 - o1))` from the source function `weight`: the summed absolute
element-wise difference of the two opinion vectors. -/
def absdiffSum (o1 o2 : List ℚ) : ℚ :=
  (List.zipWith (fun x y => |y - x|) o1 o2).sum

/-- `weight(a1, a2, nonnegative)` (Equation 1 of the paper): connection
weight between two agents, `1 - numerator / (nonneg_fac * K)` with
`K = len(o1)`.  The source raises `RuntimeError` when the two opinion
vectors have different shapes; claims about `weight` all assume the shapes
agree, so the model is total. -/
def weight (o1 o2 : List ℚ) (nonnegative : Bool) : ℚ :=
  let K : ℚ := o1.length
  let nonneg_fac : ℚ := if nonnegative then 2 else 1
  1 - absdiffSum o1 o2 / (nonneg_fac * K)

/-- `raw_opinion_update_vec(agent, neighbors)`: the factor
`1 / (2 * len(neighbors))` times the vector sum of
`weight(agent, n) * (n.opinions - agent.opinions)` over the neighbors.
In Python an empty neighbor list raises `ZeroDivisionError`; here the factor
becomes `1 / 0 = 0` and every claim using this definition assumes the
neighbor list nonempty. -/
def raw_opinion_update_vec (op : List ℚ) (nbrs : List (List ℚ)) : List ℚ :=
  let factor : ℚ := 1 / (2 * (nbrs.length : ℚ))
  vscale factor
    ((nbrs.map (fun nb => vscale (weight op nb false) (vsub nb op))).foldl
      vadd (zeros op.length))

/-- `opinion_update_vec(agent, neighbors)`: the sign-dependent bounded
update, `op + raw*(1 - op)` on the strictly positive components and
`op + raw*(1 + op)` on the rest. -/
def opinion_update_vec (op : List ℚ) (nbrs : List (List ℚ)) : List ℚ :=
  let raw := raw_opinion_update_vec op nbrs
  List.zipWith (fun o r => if 0 < o then o + r * (1 - o) else o + r * (1 + o))
    op raw

/-- `distance(agent_1, agent_2)`: mean absolute per-dimension difference,
`(1 / n_ops) * np.sum(np.abs(o1 - o2))`. -/
def distance (o1 o2 : List ℚ) : ℚ :=
  (1 / (o1.length : ℚ)) * (List.zipWith (fun x y => |x - y|) o1 o2).sum

/-- The entry `distances[i, j]` of the matrix built by `polarization`. -/
def codeDist (nodes : List (List ℚ)) (i j : Nat) : ℚ :=
  distance (nodes.getD i []) (nodes.getD j [])

/-- `distances.sum()` in `polarization`: the sum over the whole `L × L`
matrix, diagonal included (the diagonal entries are `distance(v, v) = 0`). -/
def codeTotal (nodes : List (List ℚ)) : ℚ :=
  ∑ i ∈ Finset.range nodes.length, ∑ j ∈ Finset.range nodes.length,
    codeDist nodes i j

/-- `d_expected = distances.sum() / (L*(L-1))`.  For `L < 2` the source
divides a numpy float by the integer `0`, which yields `nan` with a warning
rather than raising; the `ℚ` division by zero of the model likewise yields a junk
value (`0`) that, exactly as in the source, never reaches the returned
result because the final integer division raises first. -/
def codeDExp (nodes : List (List ℚ)) : ℚ :=
  codeTotal nodes / ((nodes.length : ℚ) * ((nodes.length : ℚ) - 1))

/-- `np.sum(np.power(d_sub_mean, 2))` after the diagonal of
`distances - d_expected` has been overwritten with `0.0`. -/
def codeSq (nodes : List (List ℚ)) : ℚ :=
  ∑ i ∈ Finset.range nodes.length, ∑ j ∈ Finset.range nodes.length,
    (if i = j then 0 else codeDist nodes i j - codeDExp nodes) ^ 2

/-- `polarization(network)` (Equation 3).  The final line of the source
computes the Python integer division `1 / (L*(L-1))`, which raises
`ZeroDivisionError` exactly when `L*(L-1) = 0`, that is when `L < 2`. -/
def polarization (nodes : List (List ℚ)) : Except PyError ℚ :=
  let L := nodes.length
  if L * (L - 1) = 0 then Except.error PyError.zeroDivisionError
  else Except.ok ((1 / ((L : ℚ) * ((L : ℚ) - 1))) * codeSq nodes)

/-- `Agent.__init__(n_opinions=2, opinion_fill=random)`: the source body is
`self.opinions = np.random.uniform(low=-1.0, high=1.0, size=2)` — both
parameters are accepted and ignored, the draw size is the literal `2`.
`draws k` models the `k`-th uniform sample the generator hands out. -/
def agentInitOpinions (n_opinions : Nat) (draws : Nat → ℚ) : List ℚ :=
  (List.range 2).map draws

/-- The graph handed to `Network.__init__`: a node list and an edge list.
Nodes are identified with natural numbers (the source relabels the integer
nodes of `nx.caveman_graph` to fresh `Agent` objects, one per integer). -/
structure Graph where
  nodes : List Nat
  edges : List (Nat × Nat)

/-- `self.possible_edges`: the list comprehension
`[(nodes[i], nodes[j]) for i in range(n) for j in range(i, n) if i != j]`. -/
def possibleEdges (nodes : List Nat) : List (Nat × Nat) :=
  (List.range nodes.length).flatMap fun i =>
    (((List.range nodes.length).filter fun j => i ≤ j && i ≠ j).map
      fun j => (nodes.getD i 0, nodes.getD j 0))

/-- The state of a `Network` object: the underlying graph plus the two
pair lists maintained by `__init__` and the rewiring methods. -/
structure Net where
  nodes : List Nat
  edges : List (Nat × Nat)
  possible_edges : List (Nat × Nat)
  non_neighbors : List (Nat × Nat)

/-- `Network.__init__(initial_graph)`: build `possible_edges` and filter out
of it every pair already present in the edge list of the graph in either
orientation, giving `non_neighbors`. -/
def networkInit (g : Graph) : Net :=
  let pe := possibleEdges g.nodes
  { nodes := g.nodes
    edges := g.edges
    possible_edges := pe
    non_neighbors :=
      pe.filter fun el =>
        !g.edges.contains (el.1, el.2) && !g.edges.contains (el.2, el.1) }

/-- `Network.add_random_connection()`: pick one element of `non_neighbors`
(`random.choice`, modelled by the index `c % len`), add it as an edge and
remove it from the pool; raise `RuntimeError` when the pool is empty.
`graph.add_edge` never duplicates an existing edge; on every state this
model is used at, the chosen pair is not yet an edge, so appending it
models the call exactly. -/
def add_random_connection (net : Net) (c : Nat) : Except PyError Net :=
  if h : 0 < net.non_neighbors.length then
    let new_edge := net.non_neighbors.get ⟨c % net.non_neighbors.length,
      Nat.mod_lt _ h⟩
    Except.ok { net with
      edges := net.edges ++ [new_edge]
      non_neighbors := net.non_neighbors.erase new_edge }
  else Except.error PyError.runtimeError

/-- The loop of `Network.add_random_connections(conn_prob)` under the CPython
list-iterator semantics: `for pair in self.non_neighbors` keeps a cursor
`i` into the live list, each executed body draws one uniform sample
(`trials t` models `np.random.uniform() < conn_prob` for the `t`-th draw)
and, on success, `self.non_neighbors.remove(pair)` deletes the element at
the cursor position so the elements after it shift down one slot before
the cursor advances.  Returns the final pool, the edges added in order,
and the number of trials performed.  `fuel` only bounds the recursion; the
cursor grows by one per step while the list never grows, so
`lst.length + 1` steps always suffice. -/
def arcLoop (trials : Nat → Bool) :
    Nat → List (Nat × Nat) → List (Nat × Nat) → Nat → Nat →
    List (Nat × Nat) × List (Nat × Nat) × Nat
  | 0, lst, added, _, t => (lst, added, t)
  | fuel + 1, lst, added, i, t =>
    if h : i < lst.length then
      let pair := lst.get ⟨i, h⟩
      if trials t then
        arcLoop trials fuel (lst.eraseIdx i) (added ++ [pair]) (i + 1) (t + 1)
      else
        arcLoop trials fuel lst added (i + 1) (t + 1)
    else (lst, added, t)

/-- `Network.add_random_connections(conn_prob)` run on a pool: final pool,
list of pairs added as edges, and the number of Bernoulli trials drawn. -/
def add_random_connections (trials : Nat → Bool) (pool : List (Nat × Nat)) :
    List (Nat × Nat) × List (Nat × Nat) × Nat :=
  arcLoop trials (pool.length + 1) pool [] 0 0

/-- Modelled from the `networkx` documentation of `nx.caveman_graph(l, k)`
used by `caves`: nodes `0 .. l*k - 1`. -/
def cavemanNodes (l k : Nat) : List Nat := List.range (l * k)

/-- Modelled from the `networkx` documentation of `nx.caveman_graph(l, k)`
used by `caves`: `l` disjoint cliques of `k` consecutive nodes, each edge
recorded once with its smaller endpoint first. -/
def cavemanEdges (l k : Nat) : List (Nat × Nat) :=
  (List.range l).flatMap fun c =>
    (List.range k).flatMap fun a =>
      (((List.range k).filter fun b => a < b).map
        fun b => (c * k + a, c * k + b))

/-- The `Network` built from `caves(4, 5)`: 4 caves of 5 agents each. -/
def net45 : Net := networkInit ⟨cavemanNodes 4 5, cavemanEdges 4 5⟩

/-- The partition invariant of the non-neighbor pool: the pool has no
duplicates, pool and edge list both live inside `possible_edges`, every
possible pair is in the pool or an edge, and never in both. -/
@[reducible] def partitionInv (net : Net) : Prop :=
  net.non_neighbors.Nodup ∧
  (∀ p ∈ net.possible_edges, p ∈ net.non_neighbors ∨ p ∈ net.edges) ∧
  (∀ p ∈ net.non_neighbors, p ∈ net.possible_edges) ∧
  (∀ p ∈ net.edges, p ∈ net.possible_edges) ∧
  (∀ p ∈ net.non_neighbors, p ∉ net.edges)

/-- The per-agent assignment inside the loop of `Network.iterate`:
`agent.opinions = opinion_update_vec(agent, self.graph.neighbors(agent))`.
The state is the list of all opinion vectors, `adj a` the neighbor indices
of agent `a`. -/
def updateAgent (adj : Nat → List Nat) (st : List (List ℚ)) (a : Nat) :
    List (List ℚ) :=
  st.set a (opinion_update_vec (st.getD a []) ((adj a).map fun b => st.getD b []))

/-- One call to `Network.iterate()`: update every agent in the (shuffled)
order `order`, each update immediately visible to the later ones. -/
def iterate (adj : Nat → List Nat) (order : List Nat) (st : List (List ℚ)) :
    List (List ℚ) :=
  order.foldl (updateAgent adj) st

/-- `n` sweeps of `Network.iterate()`, sweep `s` using the shuffled order
`orders s`. -/
def iterateN (adj : Nat → List Nat) (orders : Nat → List Nat) :
    Nat → List (List ℚ) → List (List ℚ)
  | 0, st => st
  | n + 1, st => iterate adj (orders n) (iterateN adj orders n st)

/-- Neighbor indices of agent `a` read off an edge list (the graph is
undirected, so both orientations count). -/
def neighborsOf (edges : List (Nat × Nat)) (a : Nat) : List Nat :=
  ((edges.filter fun e => e.1 = a).map fun e => e.2) ++
    ((edges.filter fun e => e.2 = a).map fun e => e.1)

/-- Every random draw the pipeline consumes, as one explicit seed-derived
package: the per-agent opinion samples of `Agent.__init__`, the uniform
stream compared against `conn_prob` in `add_random_connections`, and the
shuffled agent order of each `iterate` sweep.  In the source these are all
produced by the global generators of `numpy.random` and `random`, so they
are a deterministic function of the seeds those generators were given. -/
structure Seed where
  opinionDraws : Nat → Nat → ℚ
  uniforms : Nat → ℚ
  sweepOrders : Nat → List Nat

/-- `experiment(n_caves, n_agents, conn_prob, iterations)`: build the caveman
network (`caves` assigns each node a fresh `Agent` with random opinions),
run `add_random_connections(conn_prob)`, then `iterations` sweeps of
`iterate`.  Returns the rewired edge list together with the full opinion
history, one snapshot per sweep (the network the source returns holds the
final snapshot). -/
def experiment (n_caves n_agents : Nat) (conn_prob : ℚ) (iterations : Nat)
    (s : Seed) : List (Nat × Nat) × List (List (List ℚ)) :=
  let n := n_caves * n_agents
  let initOps := (List.range n).map fun a => agentInitOpinions 2 (s.opinionDraws a)
  let net := networkInit ⟨cavemanNodes n_caves n_agents, cavemanEdges n_caves n_agents⟩
  let rewired := add_random_connections
    (fun t => decide (s.uniforms t < conn_prob)) net.non_neighbors
  let edges := net.edges ++ rewired.2.1
  let adj := neighborsOf edges
  (edges, (List.range iterations).map fun k => iterateN adj s.sweepOrders (k + 1) initOps)

/-! ### Definitions taken from the own words of the specification

These restate the formulas of the spec independently of the source translation
above; the functional-correctness claims compare the two. -/

/-- Spec §4.3: `weight = 1 − (Σ|o1ᵢ − o2ᵢ|) / (f·K)`. -/
def specWeight (o1 o2 : List ℚ) (f : ℚ) (K : Nat) : ℚ :=
  1 - (∑ i ∈ Finset.range K, |o1.getD i 0 - o2.getD i 0|) / (f * (K : ℚ))

/-- Spec §4.3: `raw[i] = (1/(2|N|)) · Σ_{n∈N} weight(agent,n) · (opinionₙ[i] −
opinionₐ[i])` with the signed (`f = 1`) weight. -/
def specRaw (op : List ℚ) (nbrs : List (List ℚ)) (K i : Nat) : ℚ :=
  (1 / (2 * (nbrs.length : ℚ))) *
    ((nbrs.map fun nb => specWeight op nb 1 K * (nb.getD i 0 - op.getD i 0)).sum)

/-- Spec §4.3: the sign-dependent final update,
`new[i] = opinion[i] + raw[i]*(1 - opinion[i])` when `opinion[i] > 0`, else
`new[i] = opinion[i] + raw[i]*(1 + opinion[i])`. -/
def specUpdate (op : List ℚ) (nbrs : List (List ℚ)) (K i : Nat) : ℚ :=
  let o := op.getD i 0
  if 0 < o then o + specRaw op nbrs K i * (1 - o)
  else o + specRaw op nbrs K i * (1 + o)

/-- Spec §4.5: `d(a,b) = (1/K)·Σ|a_i − b_i|`. -/
def specDistance (K : Nat) (a b : List ℚ) : ℚ :=
  (1 / (K : ℚ)) * ∑ i ∈ Finset.range K, |a.getD i 0 - b.getD i 0|

/-- The ordered non-self index pairs `i ≠ j` of an `L`-agent network. -/
def offDiag (L : Nat) : Finset (Nat × Nat) :=
  (Finset.range L ×ˢ Finset.range L).filter fun p => p.1 ≠ p.2

/-- Spec §4.5: `d_expected = (Σ_{i≠j} d(i,j)) / (L(L−1))`. -/
def specDExpected (K : Nat) (nodes : List (List ℚ)) : ℚ :=
  (∑ p ∈ offDiag nodes.length,
      specDistance K (nodes.getD p.1 []) (nodes.getD p.2 [])) /
    ((nodes.length : ℚ) * ((nodes.length : ℚ) - 1))

/-- Spec §4.5: `Polarization = (1/(L(L-1))) · Σ_{i≠j} (d(i,j) − d_expected)²`. -/
def specPolarization (K : Nat) (nodes : List (List ℚ)) : ℚ :=
  (1 / ((nodes.length : ℚ) * ((nodes.length : ℚ) - 1))) *
    ∑ p ∈ offDiag nodes.length,
      (specDistance K (nodes.getD p.1 []) (nodes.getD p.2 []) -
        specDExpected K nodes) ^ 2

/-- A concrete seed used to exercise the determinism theorem. -/
def zeroSeed : Seed :=
  { opinionDraws := fun _ _ => 0, uniforms := fun _ => 1,
    sweepOrders := fun _ => [] }

/-! ### Helper lemmas -/

theorem zipWith_sum_eq (f : ℚ → ℚ → ℚ) :
    ∀ l1 l2 : List ℚ, l1.length = l2.length →
      (List.zipWith f l1 l2).sum =
        ∑ i ∈ Finset.range l1.length, f (l1.getD i 0) (l2.getD i 0)
  | [], [], _ => by simp
  | a :: l1, b :: l2, h => by
    have ih := zipWith_sum_eq f l1 l2 (by simpa using h)
    simp only [List.zipWith_cons_cons, List.sum_cons, List.length_cons]
    rw [Finset.sum_range_succ', ih]
    simp [add_comm]

theorem abs_sum_le_length_mul (c : ℚ) :
    ∀ l : List ℚ, (∀ x ∈ l, |x| ≤ c) → |l.sum| ≤ l.length * c
  | [], _ => by simp
  | a :: l, h => by
    have ih := abs_sum_le_length_mul c l (fun x hx => h x (List.mem_cons_of_mem a hx))
    have ha := h a (List.mem_cons_self a l)
    calc |(a :: l).sum| = |a + l.sum| := by simp
    _ ≤ |a| + |l.sum| := abs_add _ _
    _ ≤ c + l.length * c := by linarith
    _ = (a :: l).length * c := by simp; ring

theorem absdiffSum_nonneg : ∀ o1 o2 : List ℚ, 0 ≤ absdiffSum o1 o2
  | [], _ => by simp [absdiffSum]
  | _ :: _, [] => by simp [absdiffSum]
  | a :: o1, b :: o2 => by
    have ih := absdiffSum_nonneg o1 o2
    have := abs_nonneg (b - a)
    simp only [absdiffSum, List.zipWith_cons_cons, List.sum_cons] at *
    linarith

theorem absdiffSum_le :
    ∀ o1 o2 : List ℚ, (∀ x ∈ o1, -1 ≤ x ∧ x ≤ 1) → (∀ x ∈ o2, -1 ≤ x ∧ x ≤ 1) →
      absdiffSum o1 o2 ≤ 2 * o1.length
  | [], _, _, _ => by simp [absdiffSum]
  | _ :: o1, [], _, _ => by
    simp only [absdiffSum, List.zipWith_nil_right, List.sum_nil, List.length_cons]
    positivity
  | a :: o1, b :: o2, h1, h2 => by
    have ih := absdiffSum_le o1 o2
      (fun x hx => h1 x (List.mem_cons_of_mem a hx))
      (fun x hx => h2 x (List.mem_cons_of_mem b hx))
    have ha := h1 a (List.mem_cons_self a o1)
    have hb := h2 b (List.mem_cons_self b o2)
    have hab : |b - a| ≤ 2 := by
      rw [abs_le]; constructor <;> linarith [ha.1, ha.2, hb.1, hb.2]
    simp only [absdiffSum, List.zipWith_cons_cons, List.sum_cons,
      List.length_cons] at *
    push_cast
    linarith

theorem weight_signed_bounds (o1 o2 : List ℚ) (K : Nat) (h1 : o1.length = K)
    (hK : 0 < K) (b1 : ∀ x ∈ o1, -1 ≤ x ∧ x ≤ 1)
    (b2 : ∀ x ∈ o2, -1 ≤ x ∧ x ≤ 1) :
    -1 ≤ weight o1 o2 false ∧ weight o1 o2 false ≤ 1 := by
  have hKQ : (0 : ℚ) < K := by exact_mod_cast hK
  have hs0 := absdiffSum_nonneg o1 o2
  have hs2 := absdiffSum_le o1 o2 b1 b2
  rw [h1] at hs2
  unfold weight
  simp only [Bool.false_eq_true, if_false, h1]
  constructor
  · have : absdiffSum o1 o2 / (1 * (K : ℚ)) ≤ 2 := by
      rw [one_mul, div_le_iff₀ hKQ]; linarith
    linarith
  · have : 0 ≤ absdiffSum o1 o2 / (1 * (K : ℚ)) := by positivity
    linarith

theorem weight_nonneg_bounds (o1 o2 : List ℚ) (K : Nat) (h1 : o1.length = K)
    (hK : 0 < K) (b1 : ∀ x ∈ o1, -1 ≤ x ∧ x ≤ 1)
    (b2 : ∀ x ∈ o2, -1 ≤ x ∧ x ≤ 1) :
    0 ≤ weight o1 o2 true ∧ weight o1 o2 true ≤ 1 := by
  have hKQ : (0 : ℚ) < K := by exact_mod_cast hK
  have hs0 := absdiffSum_nonneg o1 o2
  have hs2 := absdiffSum_le o1 o2 b1 b2
  rw [h1] at hs2
  unfold weight
  simp only [if_true, h1]
  constructor
  · have : absdiffSum o1 o2 / (2 * (K : ℚ)) ≤ 1 := by
      rw [div_le_iff₀ (by positivity)]; linarith
    linarith
  · have : 0 ≤ absdiffSum o1 o2 / (2 * (K : ℚ)) := by positivity
    linarith

theorem vadd_length (a b : List ℚ) : (vadd a b).length = min a.length b.length :=
  List.length_zipWith ..

theorem vadd_getD (a b : List ℚ) (i : Nat) (ha : i < a.length)
    (hb : i < b.length) : (vadd a b).getD i 0 = a.getD i 0 + b.getD i 0 := by
  have hl : i < (vadd a b).length := by rw [vadd_length]; omega
  rw [List.getD_eq_getElem _ _ hl, List.getD_eq_getElem _ _ ha,
    List.getD_eq_getElem _ _ hb]
  exact List.getElem_zipWith ..

theorem vsub_getD (a b : List ℚ) (i : Nat) (ha : i < a.length)
    (hb : i < b.length) : (vsub a b).getD i 0 = a.getD i 0 - b.getD i 0 := by
  have hl : i < (vsub a b).length := by
    rw [vsub, List.length_zipWith]; omega
  rw [List.getD_eq_getElem _ _ hl, List.getD_eq_getElem _ _ ha,
    List.getD_eq_getElem _ _ hb]
  exact List.getElem_zipWith ..

theorem vscale_getD (c : ℚ) (v : List ℚ) (i : Nat) (h : i < v.length) :
    (vscale c v).getD i 0 = c * v.getD i 0 := by
  have hl : i < (vscale c v).length := by rw [vscale, List.length_map]; omega
  rw [List.getD_eq_getElem _ _ hl, List.getD_eq_getElem _ _ h]
  exact List.getElem_map ..

theorem foldl_vadd_length (K : Nat) :
    ∀ (l : List (List ℚ)) (acc : List ℚ), (∀ v ∈ l, v.length = K) →
      acc.length = K → (l.foldl vadd acc).length = K
  | [], acc, _, hacc => hacc
  | v :: l, acc, hl, hacc => by
    have hv : v.length = K := hl v (List.mem_cons_self v l)
    have : (vadd acc v).length = K := by rw [vadd_length, hacc, hv]; omega
    exact foldl_vadd_length K l (vadd acc v)
      (fun w hw => hl w (List.mem_cons_of_mem v hw)) this

theorem foldl_vadd_getD (K i : Nat) (hi : i < K) :
    ∀ (l : List (List ℚ)) (acc : List ℚ), (∀ v ∈ l, v.length = K) →
      acc.length = K →
      (l.foldl vadd acc).getD i 0 =
        acc.getD i 0 + (l.map fun v => v.getD i 0).sum
  | [], acc, _, _ => by simp
  | v :: l, acc, hl, hacc => by
    have hv : v.length = K := hl v (List.mem_cons_self v l)
    have hlen : (vadd acc v).length = K := by rw [vadd_length, hacc, hv]; omega
    have ih := foldl_vadd_getD K i hi l (vadd acc v)
      (fun w hw => hl w (List.mem_cons_of_mem v hw)) hlen
    simp only [List.foldl_cons, List.map_cons, List.sum_cons]
    rw [ih, vadd_getD acc v i (by omega) (by omega)]
    ring

theorem raw_length (op : List ℚ) (nbrs : List (List ℚ)) (K : Nat)
    (hop : op.length = K) (hnb : ∀ v ∈ nbrs, v.length = K) :
    (raw_opinion_update_vec op nbrs).length = K := by
  unfold raw_opinion_update_vec
  rw [vscale, List.length_map]
  refine foldl_vadd_length K _ _ ?_ (by simp [zeros, hop])
  intro w hw
  rcases List.mem_map.mp hw with ⟨nb, hnb2, rfl⟩
  rw [vscale, List.length_map, vsub, List.length_zipWith, hnb nb hnb2, hop]
  omega

theorem raw_getD (op : List ℚ) (nbrs : List (List ℚ)) (K : Nat)
    (hop : op.length = K) (hnb : ∀ v ∈ nbrs, v.length = K) (i : Nat)
    (hi : i < K) :
    (raw_opinion_update_vec op nbrs).getD i 0 =
      (1 / (2 * (nbrs.length : ℚ))) *
        ((nbrs.map fun nb =>
          weight op nb false * (nb.getD i 0 - op.getD i 0)).sum) := by
  show (vscale (1 / (2 * (nbrs.length : ℚ)))
      ((nbrs.map fun nb => vscale (weight op nb false) (vsub nb op)).foldl
        vadd (zeros op.length))).getD i 0 = _
  have hterm : ∀ v ∈ nbrs.map fun nb => vscale (weight op nb false) (vsub nb op),
      v.length = K := by
    intro w hw
    rcases List.mem_map.mp hw with ⟨nb, hnb2, rfl⟩
    rw [vscale, List.length_map, vsub, List.length_zipWith, hnb nb hnb2, hop]
    omega
  have hzlen : (zeros op.length).length = K := by
    simp only [zeros, List.length_replicate, hop]
  have hfold := foldl_vadd_length K
    (nbrs.map fun nb => vscale (weight op nb false) (vsub nb op))
    (zeros op.length) hterm hzlen
  rw [vscale_getD _ _ i (by rw [hfold]; omega)]
  rw [foldl_vadd_getD K i hi
    (nbrs.map fun nb => vscale (weight op nb false) (vsub nb op))
    (zeros op.length) hterm hzlen]
  have hz : (zeros op.length).getD i 0 = 0 := by
    have hzl : i < op.length := by omega
    simp [zeros, List.getD_eq_getElem?_getD, List.getElem?_replicate, hzl]
  rw [hz, zero_add, List.map_map]
  refine congrArg (fun s : ℚ => 1 / (2 * (nbrs.length : ℚ)) * s)
    (congrArg (List.sum : List ℚ → ℚ) (List.map_congr_left ?_))
  intro nb hnb2
  have h1 : i < nb.length := by rw [hnb nb hnb2]; omega
  have h2 : i < op.length := by rw [hop]; omega
  have h3 : i < (vsub nb op).length := by
    rw [vsub, List.length_zipWith]; omega
  simp only [Function.comp_apply]
  rw [vscale_getD _ _ i h3, vsub_getD nb op i h1 h2]

theorem update_length (op : List ℚ) (nbrs : List (List ℚ)) (K : Nat)
    (hop : op.length = K) (hnb : ∀ v ∈ nbrs, v.length = K) :
    (opinion_update_vec op nbrs).length = K := by
  unfold opinion_update_vec
  rw [List.length_zipWith, hop, raw_length op nbrs K hop hnb]
  omega

theorem update_getD (op : List ℚ) (nbrs : List (List ℚ)) (K : Nat)
    (hop : op.length = K) (hnb : ∀ v ∈ nbrs, v.length = K) (i : Nat)
    (hi : i < K) :
    (opinion_update_vec op nbrs).getD i 0 =
      (if 0 < op.getD i 0 then
        op.getD i 0 +
          (raw_opinion_update_vec op nbrs).getD i 0 * (1 - op.getD i 0)
      else
        op.getD i 0 +
          (raw_opinion_update_vec op nbrs).getD i 0 * (1 + op.getD i 0)) := by
  have hraw := raw_length op nbrs K hop hnb
  have h1 : i < op.length := by omega
  have h2 : i < (raw_opinion_update_vec op nbrs).length := by omega
  have hl : i < (opinion_update_vec op nbrs).length := by
    rw [update_length op nbrs K hop hnb]; omega
  rw [List.getD_eq_getElem _ _ hl, List.getD_eq_getElem _ _ h1,
    List.getD_eq_getElem _ _ h2]
  exact List.getElem_zipWith ..

theorem getD_bounds (v : List ℚ) (i : Nat) (hi : i < v.length)
    (hb : ∀ x ∈ v, -1 ≤ x ∧ x ≤ 1) : -1 ≤ v.getD i 0 ∧ v.getD i 0 ≤ 1 := by
  rw [List.getD_eq_getElem _ _ hi]
  exact hb _ (List.getElem_mem hi)

theorem raw_abs_le (op : List ℚ) (nbrs : List (List ℚ)) (K : Nat)
    (hK : 0 < K) (hop : op.length = K) (hnb : ∀ v ∈ nbrs, v.length = K)
    (hne : nbrs ≠ []) (bop : ∀ x ∈ op, -1 ≤ x ∧ x ≤ 1)
    (bnb : ∀ v ∈ nbrs, ∀ x ∈ v, -1 ≤ x ∧ x ≤ 1) (i : Nat) (hi : i < K) :
    |(raw_opinion_update_vec op nbrs).getD i 0| ≤ 1 := by
  rw [raw_getD op nbrs K hop hnb i hi]
  have hn : (0 : ℚ) < nbrs.length := by
    have := List.length_pos.mpr hne
    exact_mod_cast this
  have hS : |(nbrs.map fun nb =>
      weight op nb false * (nb.getD i 0 - op.getD i 0)).sum| ≤
      (nbrs.length : ℚ) * 2 := by
    have := abs_sum_le_length_mul 2
      (nbrs.map fun nb => weight op nb false * (nb.getD i 0 - op.getD i 0)) ?_
    · rw [List.length_map] at this
      exact this
    · intro x hx
      rcases List.mem_map.mp hx with ⟨nb, hnb2, rfl⟩
      have hw := weight_signed_bounds op nb K hop hK bop (bnb nb hnb2)
      have hbo := getD_bounds op i (by omega) bop
      have hbn := getD_bounds nb i (by rw [hnb nb hnb2]; omega) (bnb nb hnb2)
      rw [abs_mul]
      have h1 : |weight op nb false| ≤ 1 := abs_le.mpr hw
      have h2 : |nb.getD i 0 - op.getD i 0| ≤ 2 := by
        rw [abs_le]; constructor <;> linarith [hbo.1, hbo.2, hbn.1, hbn.2]
      calc |weight op nb false| * |nb.getD i 0 - op.getD i 0| ≤ 1 * 2 :=
        mul_le_mul h1 h2 (abs_nonneg _) (by linarith)
      _ = 2 := by norm_num
  rw [abs_mul, abs_of_pos (by positivity :
    (0 : ℚ) < 1 / (2 * (nbrs.length : ℚ)))]
  calc 1 / (2 * (nbrs.length : ℚ)) *
      |(nbrs.map fun nb =>
        weight op nb false * (nb.getD i 0 - op.getD i 0)).sum| ≤
      1 / (2 * (nbrs.length : ℚ)) * ((nbrs.length : ℚ) * 2) := by
        have hf : (0 : ℚ) ≤ 1 / (2 * (nbrs.length : ℚ)) := by positivity
        exact mul_le_mul_of_nonneg_left hS hf
  _ = 1 := by field_simp; ring

theorem update_comp_bound (o r : ℚ) (ho1 : -1 ≤ o) (ho2 : o ≤ 1)
    (hr : |r| ≤ 1) :
    -1 ≤ (if 0 < o then o + r * (1 - o) else o + r * (1 + o)) ∧
      (if 0 < o then o + r * (1 - o) else o + r * (1 + o)) ≤ 1 := by
  rw [abs_le] at hr
  split_ifs with h
  · constructor <;> nlinarith [hr.1, hr.2]
  · push_neg at h
    constructor <;> nlinarith [hr.1, hr.2]

/-- The bound invariant of Claim C1: every opinion vector in the state has
length `K` and every component lies in `[-1, 1]`. -/
@[reducible] def Inv (K : Nat) (st : List (List ℚ)) : Prop :=
  ∀ v ∈ st, v.length = K ∧ ∀ x ∈ v, -1 ≤ x ∧ x ≤ 1

theorem update_vec_bounds (op : List ℚ) (nbrs : List (List ℚ)) (K : Nat)
    (hK : 0 < K) (hop : op.length = K) (hnb : ∀ v ∈ nbrs, v.length = K)
    (hne : nbrs ≠ []) (bop : ∀ x ∈ op, -1 ≤ x ∧ x ≤ 1)
    (bnb : ∀ v ∈ nbrs, ∀ x ∈ v, -1 ≤ x ∧ x ≤ 1) :
    ∀ x ∈ opinion_update_vec op nbrs, -1 ≤ x ∧ x ≤ 1 := by
  intro x hx
  rcases List.mem_iff_getElem.mp hx with ⟨i, hil, rfl⟩
  have hiK : i < K := by
    rw [update_length op nbrs K hop hnb] at hil
    exact hil
  rw [← List.getD_eq_getElem _ 0 hil]
  rw [update_getD op nbrs K hop hnb i hiK]
  have hbo := getD_bounds op i (by omega) bop
  exact update_comp_bound _ _ hbo.1 hbo.2
    (raw_abs_le op nbrs K hK hop hnb hne bop bnb i hiK)

theorem updateAgent_inv (K : Nat) (hK : 0 < K) (adj : Nat → List Nat)
    (st : List (List ℚ)) (a : Nat)
    (hadj1 : ∀ b < st.length, adj b ≠ [])
    (hadj2 : ∀ b < st.length, ∀ c ∈ adj b, c < st.length)
    (hinv : Inv K st) :
    Inv K (updateAgent adj st a) ∧ (updateAgent adj st a).length = st.length := by
  refine ⟨?_, List.length_set st a _⟩
  by_cases ha : a < st.length
  · intro v hv
    rcases List.mem_or_eq_of_mem_set hv with hv2 | rfl
    · exact hinv v hv2
    · have hop : (st.getD a []).length = K := by
        rw [List.getD_eq_getElem _ _ ha]
        exact (hinv _ (List.getElem_mem ha)).1
      have bop : ∀ x ∈ st.getD a [], -1 ≤ x ∧ x ≤ 1 := by
        rw [List.getD_eq_getElem _ _ ha]
        exact (hinv _ (List.getElem_mem ha)).2
      have hnb : ∀ v ∈ (adj a).map fun b => st.getD b [], v.length = K := by
        intro v hv2
        rcases List.mem_map.mp hv2 with ⟨b, hb, rfl⟩
        have hbl := hadj2 a ha b hb
        rw [List.getD_eq_getElem _ _ hbl]
        exact (hinv _ (List.getElem_mem hbl)).1
      have bnb : ∀ v ∈ (adj a).map fun b => st.getD b [],
          ∀ x ∈ v, -1 ≤ x ∧ x ≤ 1 := by
        intro v hv2
        rcases List.mem_map.mp hv2 with ⟨b, hb, rfl⟩
        have hbl := hadj2 a ha b hb
        rw [List.getD_eq_getElem _ _ hbl]
        exact (hinv _ (List.getElem_mem hbl)).2
      have hne : (adj a).map (fun b => st.getD b []) ≠ [] := by
        intro hc
        exact hadj1 a ha (List.map_eq_nil_iff.mp hc)
      exact ⟨update_length _ _ K hop hnb,
        update_vec_bounds _ _ K hK hop hnb hne bop bnb⟩
  · rw [updateAgent, List.set_eq_of_length_le (by omega)]
    exact hinv

theorem iterate_inv (K : Nat) (hK : 0 < K) (adj : Nat → List Nat) (n : Nat)
    (hadj1 : ∀ b < n, adj b ≠ [])
    (hadj2 : ∀ b < n, ∀ c ∈ adj b, c < n) :
    ∀ (order : List Nat) (st : List (List ℚ)), st.length = n → Inv K st →
      Inv K (iterate adj order st) ∧ (iterate adj order st).length = n
  | [], st, hlen, hinv => ⟨hinv, hlen⟩
  | a :: order, st, hlen, hinv => by
    have h1 := updateAgent_inv K hK adj st a
      (by rw [hlen]; exact hadj1) (by rw [hlen]; exact hadj2) hinv
    have h2 := iterate_inv K hK adj n hadj1 hadj2 order (updateAgent adj st a)
      (by rw [h1.2, hlen]) h1.1
    exact h2

theorem iterateN_inv (K : Nat) (hK : 0 < K) (adj : Nat → List Nat) (n : Nat)
    (orders : Nat → List Nat) (hadj1 : ∀ b < n, adj b ≠ [])
    (hadj2 : ∀ b < n, ∀ c ∈ adj b, c < n) :
    ∀ (iters : Nat) (st : List (List ℚ)), st.length = n → Inv K st →
      Inv K (iterateN adj orders iters st) ∧
        (iterateN adj orders iters st).length = n
  | 0, st, hlen, hinv => ⟨hinv, hlen⟩
  | iters + 1, st, hlen, hinv => by
    have ih := iterateN_inv K hK adj n orders hadj1 hadj2 iters st hlen hinv
    exact iterate_inv K hK adj n hadj1 hadj2 (orders iters) _ ih.2 ih.1

/-! ### The claims -/

/-- Claim C1: if the opinion components of every agent lie in `[-1, 1]` before a
sweep (state `st` of `n` agents, all vectors of length `K ≥ 1`), and every
agent has at least one neighbor, all of them agents of the network, then
after any number of `Network.iterate` sweeps — in any update orders, each
`opinion_update_vec` assignment immediately visible to later updates —
every component of the opinion vector of every agent still lies in `[-1, 1]`. -/
theorem C1_opinions_stay_bounded (K n : Nat) (adj : Nat → List Nat)
    (orders : Nat → List Nat) (st : List (List ℚ)) (iters : Nat)
    (hK : 0 < K) (hlen : st.length = n)
    (hadj1 : ∀ b < n, adj b ≠ [])
    (hadj2 : ∀ b < n, ∀ c ∈ adj b, c < n)
    (hinv : Inv K st) :
    Inv K (iterateN adj orders iters st) :=
  (iterateN_inv K hK adj n orders hadj1 hadj2 iters st hlen hinv).1

/-- Witness for C1: two mutually connected agents with opinions in
`[-1, 1]²`, two sweeps in order `[0, 1]`. -/
theorem C1_opinions_stay_bounded_witness :
    0 < 2 ∧ ([[1, -1], [0, 1]] : List (List ℚ)).length = 2 ∧
      Inv 2 (iterateN (fun a => if a = 0 then [1] else [0]) (fun _ => [0, 1]) 2
        [[1, -1], [0, 1]]) :=
  ⟨by decide, by decide,
    C1_opinions_stay_bounded 2 2 (fun a => if a = 0 then [1] else [0])
      (fun _ => [0, 1]) [[1, -1], [0, 1]] 2 (by decide) (by decide)
      (by decide) (by decide) (by decide)⟩

theorem weight_eq_spec (o1 o2 : List ℚ) (K : Nat) (h1 : o1.length = K)
    (h2 : o2.length = K) (b : Bool) :
    weight o1 o2 b = specWeight o1 o2 (if b then 2 else 1) K := by
  unfold weight specWeight absdiffSum
  rw [zipWith_sum_eq _ o1 o2 (h1.trans h2.symm), h1]
  have : ∑ i ∈ Finset.range K, |o2.getD i 0 - o1.getD i 0| =
      ∑ i ∈ Finset.range K, |o1.getD i 0 - o2.getD i 0| := by
    refine Finset.sum_congr rfl fun i _ => ?_
    exact abs_sub_comm _ _
  rw [this]

theorem rawEq_spec (op : List ℚ) (nbrs : List (List ℚ)) (K : Nat)
    (hop : op.length = K) (hnb : ∀ v ∈ nbrs, v.length = K) (i : Nat)
    (hi : i < K) :
    (raw_opinion_update_vec op nbrs).getD i 0 = specRaw op nbrs K i := by
  rw [raw_getD op nbrs K hop hnb i hi]
  unfold specRaw
  refine congrArg (fun s : ℚ => 1 / (2 * (nbrs.length : ℚ)) * s)
    (congrArg (List.sum : List ℚ → ℚ) (List.map_congr_left ?_))
  intro nb hnb2
  rw [weight_eq_spec op nb K hop (hnb nb hnb2) false]
  norm_num

/-- Claim C3: for an agent with a nonempty neighbor set and opinion vectors
all of length `K`, `opinion_update_vec` returns the vector whose `i`-th
component is `op[i] + raw[i]*(1 - op[i])` when `op[i] > 0` and
`op[i] + raw[i]*(1 + op[i])` otherwise, where
`raw[i] = (1/(2|N|)) · Σ_{n∈N} weight(agent,n) · (opinionₙ[i] − opinionₐ[i])`
with the signed (`f = 1`) weight — the spec-side formulas being `specRaw`
and `specUpdate`. -/
theorem C3_update_rule_formula (op : List ℚ) (nbrs : List (List ℚ)) (K : Nat)
    (hop : op.length = K) (hnb : ∀ v ∈ nbrs, v.length = K) (hne : nbrs ≠ []) :
    (opinion_update_vec op nbrs).length = K ∧
      ∀ i < K, (opinion_update_vec op nbrs).getD i 0 = specUpdate op nbrs K i := by
  refine ⟨update_length op nbrs K hop hnb, fun i hi => ?_⟩
  rw [update_getD op nbrs K hop hnb i hi]
  unfold specUpdate
  rw [← rawEq_spec op nbrs K hop hnb i hi]

/-- Witness for C3: one agent `[1, -1]` with a single neighbor `[0, 1]`. -/
theorem C3_update_rule_formula_witness :
    ([1, -1] : List ℚ).length = 2 ∧
      (∀ v ∈ ([[0, 1]] : List (List ℚ)), v.length = 2) ∧
      ([[0, 1]] : List (List ℚ)) ≠ [] ∧
      ((opinion_update_vec [1, -1] [[0, 1]]).length = 2 ∧
        ∀ i < 2, (opinion_update_vec [1, -1] [[0, 1]]).getD i 0 =
          specUpdate [1, -1] [[0, 1]] 2 i) :=
  ⟨by decide, by decide, by decide,
    C3_update_rule_formula [1, -1] [[0, 1]] 2 (by decide) (by decide) (by decide)⟩

/-- Claim C4: for two agents with opinion vectors of equal length `K ≥ 1`,
`weight` returns `1 - (Σᵢ |o1ᵢ - o2ᵢ|) / (f·K)` with `f = 2` in the
nonnegative variant and `f = 1` in the signed variant, and for opinions in
`[-1,1]^K` the result lies in `[0,1]` respectively `[-1,1]`. -/
theorem C4_weight_formula (o1 o2 : List ℚ) (K : Nat) (h1 : o1.length = K)
    (h2 : o2.length = K) (hK : 0 < K) :
    (weight o1 o2 true = specWeight o1 o2 2 K ∧
      weight o1 o2 false = specWeight o1 o2 1 K) ∧
    ((∀ x ∈ o1, -1 ≤ x ∧ x ≤ 1) → (∀ x ∈ o2, -1 ≤ x ∧ x ≤ 1) →
      (0 ≤ weight o1 o2 true ∧ weight o1 o2 true ≤ 1) ∧
        (-1 ≤ weight o1 o2 false ∧ weight o1 o2 false ≤ 1)) := by
  refine ⟨⟨weight_eq_spec o1 o2 K h1 h2 true, weight_eq_spec o1 o2 K h1 h2 false⟩,
    fun b1 b2 => ⟨?_, ?_⟩⟩
  · exact weight_nonneg_bounds o1 o2 K h1 hK b1 b2
  · exact weight_signed_bounds o1 o2 K h1 hK b1 b2

/-- Witness for C4: the own test vectors of the spec, `o1 = (1,1)`, `o2 = (-1,-1)`,
`K = 2`. -/
theorem C4_weight_formula_witness :
    ([1, 1] : List ℚ).length = 2 ∧ ([-1, -1] : List ℚ).length = 2 ∧ 0 < 2 ∧
      ((weight [1, 1] [-1, -1] true = specWeight [1, 1] [-1, -1] 2 2 ∧
        weight [1, 1] [-1, -1] false = specWeight [1, 1] [-1, -1] 1 2) ∧
      ((∀ x ∈ ([1, 1] : List ℚ), -1 ≤ x ∧ x ≤ 1) →
        (∀ x ∈ ([-1, -1] : List ℚ), -1 ≤ x ∧ x ≤ 1) →
        (0 ≤ weight [1, 1] [-1, -1] true ∧ weight [1, 1] [-1, -1] true ≤ 1) ∧
          (-1 ≤ weight [1, 1] [-1, -1] false ∧
            weight [1, 1] [-1, -1] false ≤ 1))) :=
  ⟨by decide, by decide, by decide,
    C4_weight_formula [1, 1] [-1, -1] 2 (by decide) (by decide) (by decide)⟩

theorem distance_eq_spec (o1 o2 : List ℚ) (K : Nat) (h1 : o1.length = K)
    (h2 : o2.length = K) : distance o1 o2 = specDistance K o1 o2 := by
  unfold distance specDistance
  rw [zipWith_sum_eq _ o1 o2 (h1.trans h2.symm), h1]

theorem zip_abs_self : ∀ v : List ℚ, (List.zipWith (fun x y => |x - y|) v v).sum = 0
  | [] => by simp
  | a :: v => by
    have := zip_abs_self v
    simp [this]

theorem distance_self (v : List ℚ) : distance v v = 0 := by
  unfold distance
  rw [zip_abs_self]
  ring

theorem offDiag_mem (L : Nat) (p : Nat × Nat) (hp : p ∈ offDiag L) :
    p.1 < L ∧ p.2 < L ∧ p.1 ≠ p.2 := by
  rcases Finset.mem_filter.mp hp with ⟨hmem, hne⟩
  rcases Finset.mem_product.mp hmem with ⟨h1, h2⟩
  exact ⟨Finset.mem_range.mp h1, Finset.mem_range.mp h2, hne⟩

theorem double_sum_eq_offDiag (L : Nat) (f : Nat → Nat → ℚ)
    (hf : ∀ i < L, f i i = 0) :
    (∑ i ∈ Finset.range L, ∑ j ∈ Finset.range L, f i j) =
      ∑ p ∈ offDiag L, f p.1 p.2 := by
  rw [← Finset.sum_product']
  rw [← Finset.sum_filter_add_sum_filter_not
    (Finset.range L ×ˢ Finset.range L) (fun p => p.1 ≠ p.2)
    (fun p => f p.1 p.2)]
  have hz : ∑ p ∈ (Finset.range L ×ˢ Finset.range L).filter
      (fun p => ¬p.1 ≠ p.2), f p.1 p.2 = 0 := by
    refine Finset.sum_eq_zero fun p hp => ?_
    rcases Finset.mem_filter.mp hp with ⟨hmem, hne⟩
    push_neg at hne
    rcases Finset.mem_product.mp hmem with ⟨h1, _⟩
    rw [← hne]
    exact hf p.1 (Finset.mem_range.mp h1)
  rw [hz, add_zero]
  rfl

theorem codeTotal_eq_offDiag (nodes : List (List ℚ)) :
    codeTotal nodes = ∑ p ∈ offDiag nodes.length, codeDist nodes p.1 p.2 :=
  double_sum_eq_offDiag _ _ fun i _ => distance_self _

theorem codeDist_eq_spec (nodes : List (List ℚ)) (K : Nat)
    (hlen : ∀ v ∈ nodes, v.length = K) (i j : Nat) (hi : i < nodes.length)
    (hj : j < nodes.length) :
    codeDist nodes i j = specDistance K (nodes.getD i []) (nodes.getD j []) := by
  unfold codeDist
  refine distance_eq_spec _ _ K ?_ ?_
  · rw [List.getD_eq_getElem _ _ hi]; exact hlen _ (List.getElem_mem hi)
  · rw [List.getD_eq_getElem _ _ hj]; exact hlen _ (List.getElem_mem hj)

theorem codeDExp_eq_spec (nodes : List (List ℚ)) (K : Nat)
    (hlen : ∀ v ∈ nodes, v.length = K) :
    codeDExp nodes = specDExpected K nodes := by
  unfold codeDExp specDExpected
  rw [codeTotal_eq_offDiag]
  congr 1
  refine Finset.sum_congr rfl fun p hp => ?_
  rcases offDiag_mem _ p hp with ⟨h1, h2, _⟩
  exact codeDist_eq_spec nodes K hlen p.1 p.2 h1 h2

theorem codeSq_eq_spec (nodes : List (List ℚ)) (K : Nat)
    (hlen : ∀ v ∈ nodes, v.length = K) :
    codeSq nodes = ∑ p ∈ offDiag nodes.length,
      (specDistance K (nodes.getD p.1 []) (nodes.getD p.2 []) -
        specDExpected K nodes) ^ 2 := by
  unfold codeSq
  rw [double_sum_eq_offDiag _ _ (fun i _ => by simp)]
  refine Finset.sum_congr rfl fun p hp => ?_
  rcases offDiag_mem _ p hp with ⟨h1, h2, hne⟩
  rw [if_neg hne, codeDist_eq_spec nodes K hlen p.1 p.2 h1 h2,
    codeDExp_eq_spec nodes K hlen]

/-- Claim C5: for a network of `L ≥ 2` agents with equal-length opinion
vectors of length `K ≥ 1`, `polarization` returns
`(1/(L(L-1))) · Σ_{i≠j} (d(i,j) − d_expected)²` over ordered non-self pairs
with `d_expected = (Σ_{i≠j} d(i,j)) / (L(L-1))` (the spec-side
`specPolarization`), the result is nonnegative, and it equals `0` when all
agents hold identical opinions. -/
theorem C5_polarization_formula (nodes : List (List ℚ)) (K : Nat)
    (hK : 0 < K) (hL : 2 ≤ nodes.length) (hlen : ∀ v ∈ nodes, v.length = K) :
    polarization nodes = Except.ok (specPolarization K nodes) ∧
      0 ≤ specPolarization K nodes ∧
      ((∀ v ∈ nodes, ∀ w ∈ nodes, v = w) → specPolarization K nodes = 0) := by
  have hguard : ¬nodes.length * (nodes.length - 1) = 0 :=
    Nat.mul_ne_zero (by omega) (by omega)
  have hLQ : (2 : ℚ) ≤ (nodes.length : ℚ) := by exact_mod_cast hL
  have hden : (0 : ℚ) < (nodes.length : ℚ) * ((nodes.length : ℚ) - 1) := by
    nlinarith
  refine ⟨?_, ?_, ?_⟩
  · unfold polarization
    rw [if_neg hguard]
    unfold specPolarization
    rw [codeSq_eq_spec nodes K hlen]
  · unfold specPolarization
    refine mul_nonneg (by positivity) (Finset.sum_nonneg fun p _ => sq_nonneg _)
  · intro hcons
    have hd : ∀ p ∈ offDiag nodes.length,
        specDistance K (nodes.getD p.1 []) (nodes.getD p.2 []) = 0 := by
      intro p hp
      rcases offDiag_mem _ p hp with ⟨h1, h2, _⟩
      have : nodes.getD p.1 [] = nodes.getD p.2 [] := by
        rw [List.getD_eq_getElem _ _ h1, List.getD_eq_getElem _ _ h2]
        exact hcons _ (List.getElem_mem h1) _ (List.getElem_mem h2)
      rw [this]
      unfold specDistance
      have : ∀ i ∈ Finset.range K,
          |(nodes.getD p.2 []).getD i 0 - (nodes.getD p.2 []).getD i 0| = 0 := by
        intro i _
        simp
      rw [Finset.sum_congr rfl this]
      simp
    unfold specPolarization specDExpected
    rw [Finset.sum_congr rfl hd]
    have hzero : ∀ p ∈ offDiag nodes.length,
        (specDistance K (nodes.getD p.1 []) (nodes.getD p.2 []) -
          (∑ q ∈ offDiag nodes.length, (0 : ℚ)) /
            ((nodes.length : ℚ) * ((nodes.length : ℚ) - 1))) ^ 2 = 0 := by
      intro p hp
      rw [hd p hp]
      simp
    rw [Finset.sum_congr rfl hzero]
    simp

/-- Witness for C5: two agents holding the identical opinion `[0]`. -/
theorem C5_polarization_formula_witness :
    0 < 1 ∧ 2 ≤ ([[0], [0]] : List (List ℚ)).length ∧
      (∀ v ∈ ([[0], [0]] : List (List ℚ)), v.length = 1) ∧
      (polarization [[0], [0]] = Except.ok (specPolarization 1 [[0], [0]]) ∧
        0 ≤ specPolarization 1 [[0], [0]] ∧
        ((∀ v ∈ ([[0], [0]] : List (List ℚ)),
            ∀ w ∈ ([[0], [0]] : List (List ℚ)), v = w) →
          specPolarization 1 [[0], [0]] = 0)) :=
  ⟨by decide, by decide, by decide,
    C5_polarization_formula [[0], [0]] 1 (by decide) (by decide) (by decide)⟩

/-- Counterexample to C9 as stated: on the empty network `polarization`
fails with `ZeroDivisionError` (the final `1/(L*(L-1))` divides by the
integer `0`), not with the specified `EmptyNetworkError` — no exception class
of that name exists anywhere in the source. -/
theorem C9_counterexample :
    polarization ([] : List (List ℚ)) = Except.error PyError.zeroDivisionError ∧
      polarization ([] : List (List ℚ)) ≠
        Except.error PyError.emptyNetworkError := by
  refine ⟨rfl, fun h => ?_⟩
  have h1 : (Except.error PyError.zeroDivisionError : Except PyError ℚ) =
      Except.error PyError.emptyNetworkError := h
  injection h1 with h2
  exact PyError.noConfusion h2

/-- Claim C9 (amended): `polarization` fails — with `ZeroDivisionError`
rather than an `EmptyNetworkError`, which does not exist in the source —
whenever the network contains fewer than 2 agents, and succeeds (returns a
value, raising nothing) for every network of `L ≥ 2` agents with
equal-length opinion vectors. -/
theorem C9_polarization_error_amended (nodes : List (List ℚ)) (K : Nat)
    (hlen : ∀ v ∈ nodes, v.length = K) :
    (nodes.length < 2 →
        polarization nodes = Except.error PyError.zeroDivisionError) ∧
      (2 ≤ nodes.length → ∃ q, polarization nodes = Except.ok q) := by
  constructor
  · intro hL
    unfold polarization
    have : nodes.length = 0 ∨ nodes.length = 1 := by omega
    rcases this with h | h <;> rw [h] <;> rfl
  · intro hL
    unfold polarization
    rw [if_neg (Nat.mul_ne_zero (by omega) (by omega))]
    exact ⟨_, rfl⟩

/-- Witness for C9 (amended): the single-agent network `[[0]]` fails with
`ZeroDivisionError`, the two-agent network case is exercised by `nodes`
of length 1 satisfying the first conjunct. -/
theorem C9_polarization_error_amended_witness :
    (∀ v ∈ ([[0]] : List (List ℚ)), v.length = 1) ∧
      ((([[0]] : List (List ℚ)).length < 2 →
          polarization [[0]] = Except.error PyError.zeroDivisionError) ∧
        (2 ≤ ([[0]] : List (List ℚ)).length →
          ∃ q, polarization [[0]] = Except.ok q)) :=
  ⟨by decide, C9_polarization_error_amended [[0]] 1 (by decide)⟩

theorem range_double_to_fin (L : Nat) (f : Nat → Nat → ℚ) :
    (∑ i ∈ Finset.range L, ∑ j ∈ Finset.range L, f i j) =
      ∑ i : Fin L, ∑ j : Fin L, f i j := by
  rw [← Fin.sum_univ_eq_sum_range (fun i => ∑ j ∈ Finset.range L, f i j) L]
  exact Finset.sum_congr rfl fun i _ =>
    (Fin.sum_univ_eq_sum_range (fun j => f i j) L).symm

theorem double_sum_reindex (L : Nat) (σ : Equiv.Perm (Fin L))
    (F : Fin L → Fin L → ℚ) :
    (∑ i : Fin L, ∑ j : Fin L, F (σ i) (σ j)) =
      ∑ i : Fin L, ∑ j : Fin L, F i j := by
  rw [Equiv.sum_comp σ (fun a => ∑ j : Fin L, F a (σ j))]
  exact Finset.sum_congr rfl fun a _ => Equiv.sum_comp σ (F a)

/-- Claim C10: for `L ≥ 2` agents with equal-length opinion vectors,
`polarization` applied to a permutation of the agent list returns the same
value as on the original list — the metric does not depend on the node
enumeration order. -/
theorem C10_polarization_perm_invariant (L K : Nat) (hL : 2 ≤ L)
    (l l2 : List (List ℚ)) (hl : l.length = L) (hl2 : l2.length = L)
    (hK : ∀ v ∈ l, v.length = K) (σ : Equiv.Perm (Fin L))
    (hperm : ∀ i : Fin L, l2.getD (i : Nat) [] = l.getD ((σ i : Fin L) : Nat) []) :
    polarization l2 = polarization l := by
  have hdist : ∀ i j : Fin L,
      codeDist l2 (i : Nat) (j : Nat) =
        codeDist l ((σ i : Fin L) : Nat) ((σ j : Fin L) : Nat) := by
    intro i j
    unfold codeDist
    rw [hperm i, hperm j]
  have htot : codeTotal l2 = codeTotal l := by
    unfold codeTotal
    rw [hl2, hl, range_double_to_fin, range_double_to_fin]
    rw [← double_sum_reindex L σ (fun a b => codeDist l (a : Nat) (b : Nat))]
    exact Finset.sum_congr rfl fun i _ =>
      Finset.sum_congr rfl fun j _ => hdist i j
  have hexp : codeDExp l2 = codeDExp l := by
    unfold codeDExp
    rw [htot, hl2, hl]
  have hsq : codeSq l2 = codeSq l := by
    unfold codeSq
    rw [hl2, hl, range_double_to_fin, range_double_to_fin]
    rw [← double_sum_reindex L σ (fun a b =>
      (if (a : Nat) = (b : Nat) then 0
        else codeDist l (a : Nat) (b : Nat) - codeDExp l) ^ 2)]
    refine Finset.sum_congr rfl fun i _ => Finset.sum_congr rfl fun j _ => ?_
    by_cases h : i = j
    · subst h
      simp
    · have h1 : (i : Nat) ≠ (j : Nat) := fun hc => h (Fin.val_inj.mp hc)
      have h2 : ((σ i : Fin L) : Nat) ≠ ((σ j : Fin L) : Nat) := fun hc =>
        h (σ.injective (Fin.val_inj.mp hc))
      rw [if_neg h1, if_neg h2, hdist i j, hexp]
  unfold polarization
  rw [hl2, hl, hsq]

/-- Witness for C10: swapping the two agents `[[0], [1]]`. -/
theorem C10_polarization_perm_invariant_witness :
    2 ≤ 2 ∧ ([[0], [1]] : List (List ℚ)).length = 2 ∧
      ([[1], [0]] : List (List ℚ)).length = 2 ∧
      (∀ v ∈ ([[0], [1]] : List (List ℚ)), v.length = 1) ∧
      (∀ i : Fin 2, ([[1], [0]] : List (List ℚ)).getD (i : Nat) [] =
        ([[0], [1]] : List (List ℚ)).getD ((Equiv.swap 0 1 i : Fin 2) : Nat) []) ∧
      polarization [[1], [0]] = polarization [[0], [1]] :=
  ⟨by decide, by decide, by decide, by decide, by decide,
    C10_polarization_perm_invariant 2 1 (by decide) [[0], [1]] [[1], [0]]
      (by decide) (by decide) (by decide) (Equiv.swap 0 1) (by decide)⟩

/-- Claim C2 names a code bug: on the pool `[(0,1), (2,3)]` with every
Bernoulli trial succeeding (`conn_prob = 1`), the loop adds `(0,1)` and
removes it from the live list, the iterator cursor then points past the
shifted `(2,3)`, so only one trial is drawn: `(2,3)` is never subjected to
its trial, stays in the pool and is not connected, although the claim
requires every pool member to receive exactly one trial and the trial of
`(2,3)` would have succeeded. -/
theorem C2_skipped_candidate :
    add_random_connections (fun _ => true) [(0, 1), (2, 3)] =
        ([(2, 3)], [(0, 1)], 1) ∧
      (add_random_connections (fun _ => true) [(0, 1), (2, 3)]).2.2 ≠ 2 ∧
      (2, 3) ∈ (add_random_connections (fun _ => true) [(0, 1), (2, 3)]).1 ∧
      (2, 3) ∉ (add_random_connections (fun _ => true) [(0, 1), (2, 3)]).2.1 :=
  ⟨by decide, by decide, by decide, by decide⟩

/-- Claim C6 names a code bug: `Agent.__init__` accepts `n_opinions` but
draws `np.random.uniform(..., size=2)` unconditionally, so requesting
`K = 3` opinion dimensions still yields a vector of length 2. -/
theorem C6_agent_opinion_length :
    (agentInitOpinions 3 fun _ => 0).length = 2 ∧ (2 : Nat) ≠ 3 :=
  ⟨rfl, by decide⟩

set_option maxRecDepth 10000 in
theorem net45_inv : partitionInv net45 := by decide

set_option maxRecDepth 10000 in
theorem net45_no_self_pairs : ∀ p ∈ net45.possible_edges, p.1 ≠ p.2 := by
  decide

theorem add_conn_preserves (net : Net) (c : Nat) (hinv : partitionInv net)
    (hpos : 0 < net.non_neighbors.length) :
    ∃ net2, add_random_connection net c = Except.ok net2 ∧
      ∃ e, e ∈ net.non_neighbors ∧ e ∉ net.edges ∧
        net2.edges = net.edges ++ [e] ∧
        net2.non_neighbors = net.non_neighbors.erase e ∧
        net2.non_neighbors.length + 1 = net.non_neighbors.length ∧
        partitionInv net2 := by
  obtain ⟨hnd, hcover, hsub1, hsub2, hdisj⟩ := hinv
  have hmem : net.non_neighbors.get ⟨c % net.non_neighbors.length,
      Nat.mod_lt _ hpos⟩ ∈ net.non_neighbors := List.get_mem _ _ _
  set e := net.non_neighbors.get ⟨c % net.non_neighbors.length,
    Nat.mod_lt _ hpos⟩ with hedef
  refine ⟨Net.mk net.nodes (net.edges ++ [e]) net.possible_edges
      (net.non_neighbors.erase e), ?_,
    e, hmem, hdisj e hmem, rfl, rfl, ?_, ?_, ?_, ?_, ?_, ?_⟩
  · unfold add_random_connection
    rw [dif_pos hpos]
  · rw [List.length_erase_of_mem hmem]
    omega
  · exact hnd.erase e
  · intro p hp
    rcases hcover p hp with hp2 | hp2
    · by_cases hpe : p = e
      · subst hpe
        right
        simp
      · left
        exact (List.Nodup.mem_erase_iff hnd).mpr ⟨hpe, hp2⟩
    · right
      simp [hp2]
  · intro p hp
    exact hsub1 p (List.mem_of_mem_erase hp)
  · intro p hp
    rcases List.mem_append.mp hp with hp2 | hp2
    · exact hsub2 p hp2
    · rw [List.mem_singleton.mp hp2]
      exact hsub1 e hmem
  · intro p hp
    rcases (List.Nodup.mem_erase_iff hnd).mp hp with ⟨hpe, hp2⟩
    intro hc
    rcases List.mem_append.mp hc with hc2 | hc2
    · exact hdisj p hp2 hc2
    · exact hpe (List.mem_singleton.mp hc2)

set_option maxRecDepth 10000 in
/-- Claim C7: the non-neighbor pool and the edge list partition the
complete set of unordered distinct agent pairs, at construction on the
`caves(4, 5)` network (pool of 150 pairs, 40 edges, 190 possible pairs,
none of them a self-pair) and after any successful
`add_random_connection`, which appends exactly one pair that was not yet
an edge and removes that pair from the pool exactly once; on the
`caves(4, 5)` network one call leaves 149 pool pairs and 41 edges. -/
theorem C7_pool_edge_partition (net : Net) (c : Nat) (hinv : partitionInv net)
    (hpos : 0 < net.non_neighbors.length) :
    (partitionInv net45 ∧ net45.non_neighbors.length = 150 ∧
      net45.edges.length = 40 ∧ net45.possible_edges.length = 190 ∧
      (∀ p ∈ net45.possible_edges, p.1 ≠ p.2)) ∧
    (∃ net2, add_random_connection net c = Except.ok net2 ∧
      ∃ e, e ∈ net.non_neighbors ∧ e ∉ net.edges ∧
        net2.edges = net.edges ++ [e] ∧
        net2.non_neighbors = net.non_neighbors.erase e ∧
        net2.non_neighbors.length + 1 = net.non_neighbors.length ∧
        partitionInv net2) ∧
    (∀ net2, add_random_connection net45 c = Except.ok net2 →
      net2.non_neighbors.length = 149 ∧ net2.edges.length = 41 ∧
      partitionInv net2 ∧
      ∃ e, e.1 ≠ e.2 ∧ e ∉ net45.edges ∧ net2.edges = net45.edges ++ [e]) := by
  have h150 : net45.non_neighbors.length = 150 := by decide
  have h40 : net45.edges.length = 40 := by decide
  refine ⟨⟨net45_inv, h150, h40, by decide, net45_no_self_pairs⟩,
    add_conn_preserves net c hinv hpos, ?_⟩
  intro net2 heq
  obtain ⟨net2a, heqa, e, hmem, hnotedge, hedges, hpool, hlen, hinv2⟩ :=
    add_conn_preserves net45 c net45_inv (by rw [h150]; omega)
  rw [heqa] at heq
  injection heq with heq2
  subst heq2
  refine ⟨by omega, by rw [hedges, List.length_append, h40]; rfl, hinv2,
    e, net45_no_self_pairs e (net45_inv.2.2.1 e hmem), hnotedge, hedges⟩

set_option maxRecDepth 10000 in
/-- Witness for C7: the `caves(4, 5)` network itself with choice index 0. -/
theorem C7_pool_edge_partition_witness :
    partitionInv net45 ∧ 0 < net45.non_neighbors.length ∧
      (∀ net2, add_random_connection net45 0 = Except.ok net2 →
        net2.non_neighbors.length = 149 ∧ net2.edges.length = 41 ∧
        partitionInv net2 ∧
        ∃ e, e.1 ≠ e.2 ∧ e ∉ net45.edges ∧ net2.edges = net45.edges ++ [e]) :=
  ⟨net45_inv, by decide,
    (C7_pool_edge_partition net45 0 net45_inv (by decide)).2.2⟩

/-- Claim C8: the full build + rewire + run pipeline is a deterministic
function of the RNG seed and the parameters — two executions with
identical seeds and identical `n_caves`, `n_agents`, `conn_prob`,
`iterations` produce identical opinion histories (and identical rewired
edge lists).  All randomness the source consumes from the global
`numpy.random` and `random` generators is captured by the explicit
seed-derived `Seed` streams. -/
theorem C8_experiment_deterministic (n_caves n_agents : Nat) (conn_prob : ℚ)
    (iterations : Nat) (s1 s2 : Seed) (h : s1 = s2) :
    experiment n_caves n_agents conn_prob iterations s1 =
      experiment n_caves n_agents conn_prob iterations s2 := by
  rw [h]

/-- Witness for C8: a 1-cave, 2-agent pipeline run twice from the same
seed. -/
theorem C8_experiment_deterministic_witness :
    zeroSeed = zeroSeed ∧
      experiment 1 2 0 1 zeroSeed = experiment 1 2 0 1 zeroSeed :=
  ⟨rfl, C8_experiment_deterministic 1 2 0 1 zeroSeed zeroSeed rfl⟩

end Macy
